import Mathlib

/-!
Verification of `floppy_disk_image_file_to_serial_install` (apple2disk).

The Go program reads a ProDOS-order disk image, reorders the sectors of every
track into the order expected by the DOS 3.3 RWTS write routine, and emits a
textual stream of Apple ][ monitor commands that install one track of the image
on a physical floppy over a serial link.

Shallow embedding conventions:
* a disk image / byte buffer is a `List Nat` (one entry per byte); Go's
  in-place element writes become `List.set`, reads become `List.getD _ 0`
  (Go would abort on an out-of-range access; every theorem below carries
  length hypotheses under which all accesses performed by the source are in
  bounds, so the total model and the Go code agree on that domain);
* Go `int` values that can be negative (addresses, offsets, counts, the track
  argument) are `Int`; loop fuel is the only `Nat` artifact (the Go `for`
  loops diverge for non-positive segment sizes; the fuel constant strictly
  dominates the iteration count for every positive segment size);
* a Go `panic` is `Except.error` carrying the message text (`List Char`);
* each monitor "fill memory" line is kept as a structured record (`FillCmd`)
  holding the arguments of the emitting call together with the byte payload
  actually sliced from the source; the text actually printed for a command is
  `renderFillCmd`.
-/

namespace Apple2Disk

/-! ### Offsets (`diskImageStartPosOfTrackSector`) -/

/-- `diskImageStartPosOfTrackSector`: linear offset of the start of
`(trackNum, sectorNum)` in a raw disk image (`0x1000` bytes per track,
`0x100` bytes per sector). -/
def diskImageStartPosOfTrackSector (trackNum sectorNum : Int) : Int :=
  0x00001000 * trackNum + 0x00000100 * sectorNum

/-! ### Byte-copy loops of the sector shuffling section

The three Go helpers (`readSectorDataToBuffer`, `writeSectorDataFromBuffer`,
`copySectorDataInImage`) all copy `0x100` bytes one byte per iteration,
incrementing a source and a destination position.  `copyBytesAcross` models
the two-buffer loops (the source buffer is never the mutated one);
`copyBytesWithin` models `copySectorDataInImage`, where source and
destination live in the same buffer and every read sees earlier writes. -/

/-- One-byte-at-a-time copy of `n` bytes from `src` (starting at `sp`) into
`dst` (starting at `dp`), as the Go loops do. -/
def copyBytesAcross (src : List Nat) : List Nat → Nat → Nat → Nat → List Nat
  | dst, _, _, 0 => dst
  | dst, sp, dp, n + 1 =>
      copyBytesAcross src (dst.set dp (src.getD sp 0)) (sp + 1) (dp + 1) n

/-- One-byte-at-a-time copy of `n` bytes inside `img` from position `sp` to
position `dp`; each read sees the writes already performed. -/
def copyBytesWithin : List Nat → Nat → Nat → Nat → List Nat
  | img, _, _, 0 => img
  | img, sp, dp, n + 1 =>
      copyBytesWithin (img.set dp (img.getD sp 0)) (sp + 1) (dp + 1) n

/-- `readSectorDataToBuffer`: fill the 256-byte scratch buffer with the sector
`(track, sector)` of `diskImage`. -/
def readSectorDataToBuffer (sectorBuffer diskImage : List Nat) (track sector : Nat) : List Nat :=
  copyBytesAcross diskImage sectorBuffer
    (diskImageStartPosOfTrackSector track sector).toNat 0 0x100

/-- `writeSectorDataFromBuffer`: overwrite the sector `(track, sector)` of
`diskImage` with the scratch buffer's content. -/
def writeSectorDataFromBuffer (sectorBuffer diskImage : List Nat) (track sector : Nat) : List Nat :=
  copyBytesAcross sectorBuffer diskImage 0
    (diskImageStartPosOfTrackSector track sector).toNat 0x100

/-- `copySectorDataInImage`: overwrite sector `(track, destinationSector)` of
`diskImage` with the bytes of sector `(track, sourceSector)`. -/
def copySectorDataInImage (diskImage : List Nat) (track sourceSector destinationSector : Nat) :
    List Nat :=
  copyBytesWithin diskImage
    (diskImageStartPosOfTrackSector track sourceSector).toNat
    (diskImageStartPosOfTrackSector track destinationSector).toNat 0x100

/-- One "rotation group" of `convertDiskImageFromProdosOrderToDos33Order`:
read sector `a` of `track` into the scratch buffer, copy sector `b` over
sector `a`, then write the buffer into sector `b`.  The state is the pair
(image, scratch buffer). -/
def shuffleSectorPair (st : List Nat × List Nat) (track a b : Nat) : List Nat × List Nat :=
  let buf := readSectorDataToBuffer st.2 st.1 track a
  let img := copySectorDataInImage st.1 track b a
  let img := writeSectorDataFromBuffer buf img track b
  (img, buf)

/-- The seven sector pairs swapped per track, in the order the Go function
performs them (rotation groups 1-7). -/
def prodosToDos33Pairs : List (Nat × Nat) :=
  [(0x01, 0x0E), (0x02, 0x0D), (0x03, 0x0C), (0x04, 0x0B),
   (0x05, 0x0A), (0x06, 0x09), (0x07, 0x08)]

/-- The body of the per-track loop of
`convertDiskImageFromProdosOrderToDos33Order`: the seven rotation groups in
order. -/
def shuffleTrack (st : List Nat × List Nat) (track : Nat) : List Nat × List Nat :=
  prodosToDos33Pairs.foldl (fun st p => shuffleSectorPair st track p.1 p.2) st

/-- `convertDiskImageFromProdosOrderToDos33Order`: for every track
`0x00 ≤ track < 0x23`, perform the seven pairwise sector swaps; the 256-byte
scratch buffer (zero-initialised, as Go zeroes a fresh array) is threaded
through all iterations. -/
def convertDiskImageFromProdosOrderToDos33Order (diskImage : List Nat) : List Nat :=
  ((List.range 0x23).foldl shuffleTrack (diskImage, List.replicate 0x100 0)).1

/-! ### Pointwise characterisation of the copy loops -/

theorem getD_set (l : List Nat) (i v p : Nat) :
    (l.set i v).getD p 0 = if p = i ∧ i < l.length then v else l.getD p 0 := by
  simp only [List.getD_eq_getElem?_getD, List.getElem?_set]
  by_cases h1 : i = p
  · subst h1
    by_cases h2 : i < l.length
    · simp [h2]
    · simp [h2, List.getElem?_eq_none (le_of_not_lt h2)]
  · rw [if_neg h1, if_neg (fun h => h1 h.1.symm)]

theorem length_copyBytesAcross (src : List Nat) :
    ∀ (n : Nat) (dst : List Nat) (sp dp : Nat),
      (copyBytesAcross src dst sp dp n).length = dst.length := by
  intro n
  induction n with
  | zero => intro dst sp dp; rfl
  | succ n ih =>
      intro dst sp dp
      simpa [copyBytesAcross] using ih (dst.set dp (src.getD sp 0)) (sp + 1) (dp + 1)

theorem length_copyBytesWithin :
    ∀ (n : Nat) (img : List Nat) (sp dp : Nat),
      (copyBytesWithin img sp dp n).length = img.length := by
  intro n
  induction n with
  | zero => intro img sp dp; rfl
  | succ n ih =>
      intro img sp dp
      simpa [copyBytesWithin] using ih (img.set dp (img.getD sp 0)) (sp + 1) (dp + 1)

theorem getD_copyBytesAcross (src : List Nat) :
    ∀ (n : Nat) (dst : List Nat) (sp dp : Nat), dp + n ≤ dst.length →
      ∀ p, (copyBytesAcross src dst sp dp n).getD p 0 =
        if dp ≤ p ∧ p < dp + n then src.getD (sp + (p - dp)) 0 else dst.getD p 0 := by
  intro n
  induction n with
  | zero =>
      intro dst sp dp _ p
      simp only [copyBytesAcross]
      rw [if_neg (by omega)]
  | succ n ih =>
      intro dst sp dp hlen p
      simp only [copyBytesAcross]
      rw [ih (dst.set dp (src.getD sp 0)) (sp + 1) (dp + 1)
            (by simpa using by omega) p]
      rw [getD_set]
      by_cases h1 : dp + 1 ≤ p ∧ p < dp + 1 + n
      · rw [if_pos h1, if_pos (by omega)]
        congr 1
        omega
      · rw [if_neg h1]
        by_cases h2 : p = dp
        · subst h2
          rw [if_pos ⟨rfl, by omega⟩, if_pos (by omega)]
          congr 1
          omega
        · rw [if_neg (by simp [h2]), if_neg (by omega)]

theorem getD_copyBytesWithin :
    ∀ (n : Nat) (img : List Nat) (sp dp : Nat),
      dp + n ≤ img.length → (sp + n ≤ dp ∨ dp + n ≤ sp) →
      ∀ p, (copyBytesWithin img sp dp n).getD p 0 =
        if dp ≤ p ∧ p < dp + n then img.getD (sp + (p - dp)) 0 else img.getD p 0 := by
  intro n
  induction n with
  | zero =>
      intro img sp dp _ _ p
      simp only [copyBytesWithin]
      rw [if_neg (by omega)]
  | succ n ih =>
      intro img sp dp hlen hdisj p
      simp only [copyBytesWithin]
      rw [ih (img.set dp (img.getD sp 0)) (sp + 1) (dp + 1)
            (by simpa using by omega) (by omega) p]
      by_cases h1 : dp + 1 ≤ p ∧ p < dp + 1 + n
      · rw [if_pos h1, if_pos (by omega), getD_set, if_neg (by omega)]
        congr 1
        omega
      · rw [if_neg h1, getD_set]
        by_cases h2 : p = dp
        · subst h2
          rw [if_pos ⟨rfl, by omega⟩, if_pos (by omega)]
          congr 1
          omega
        · rw [if_neg (by simp [h2]), if_neg (by omega)]

theorem startPos_toNat (t a : Nat) :
    (diskImageStartPosOfTrackSector t a).toNat = 4096 * t + 256 * a := by
  simp only [diskImageStartPosOfTrackSector]
  omega

theorem length_shuffleSectorPair_fst (st : List Nat × List Nat) (t a b : Nat) :
    (shuffleSectorPair st t a b).1.length = st.1.length := by
  simp only [shuffleSectorPair, readSectorDataToBuffer, copySectorDataInImage,
    writeSectorDataFromBuffer, length_copyBytesAcross, length_copyBytesWithin]

theorem length_shuffleSectorPair_snd (st : List Nat × List Nat) (t a b : Nat) :
    (shuffleSectorPair st t a b).2.length = st.2.length := by
  simp only [shuffleSectorPair, readSectorDataToBuffer, length_copyBytesAcross]

/-- Effect of one rotation group on the image: the 256 bytes at sector `a`
afterwards are the old sector `b` bytes, the bytes at sector `b` are the old
sector `a` bytes, and every other byte is unchanged. -/
theorem shuffleSectorPair_getD (img buf : List Nat) (t a b : Nat)
    (hbuf : buf.length = 256) (ha : 4096 * t + 256 * a + 256 ≤ img.length)
    (hb : 4096 * t + 256 * b + 256 ≤ img.length) (hab : a ≠ b) (p : Nat) :
    (shuffleSectorPair (img, buf) t a b).1.getD p 0 =
      if 4096 * t + 256 * a ≤ p ∧ p < 4096 * t + 256 * a + 256 then
        img.getD (4096 * t + 256 * b + (p - (4096 * t + 256 * a))) 0
      else if 4096 * t + 256 * b ≤ p ∧ p < 4096 * t + 256 * b + 256 then
        img.getD (4096 * t + 256 * a + (p - (4096 * t + 256 * b))) 0
      else img.getD p 0 := by
  have hdisj : 4096 * t + 256 * b + 256 ≤ 4096 * t + 256 * a ∨
      4096 * t + 256 * a + 256 ≤ 4096 * t + 256 * b := by omega
  simp only [shuffleSectorPair, readSectorDataToBuffer, copySectorDataInImage,
    writeSectorDataFromBuffer, startPos_toNat]
  rw [getD_copyBytesAcross _ 256
        (copyBytesWithin img (4096 * t + 256 * b) (4096 * t + 256 * a) 256)
        0 (4096 * t + 256 * b)
        (by rw [length_copyBytesWithin]; omega) p,
      getD_copyBytesAcross img 256 buf (4096 * t + 256 * a) 0 (by omega) (0 + (p - (4096 * t + 256 * b))),
      getD_copyBytesWithin 256 img (4096 * t + 256 * b) (4096 * t + 256 * a) (by omega) hdisj p]
  split_ifs <;> first | rfl | (exfalso; omega) | (congr 1; omega)

/-! ### The sector permutation realised by the shuffle -/

/-- Offset-level action of one rotation group `(a, b)` on track `t`:
a position inside sector `a` is reflected into sector `b` and vice versa;
everything else is left alone. -/
def pairMapOff (t a b p : Nat) : Nat :=
  if 4096 * t + 256 * a ≤ p ∧ p < 4096 * t + 256 * a + 256 then
    4096 * t + 256 * b + (p - (4096 * t + 256 * a))
  else if 4096 * t + 256 * b ≤ p ∧ p < 4096 * t + 256 * b + 256 then
    4096 * t + 256 * a + (p - (4096 * t + 256 * b))
  else p

/-- Offset-level action of a list of rotation groups (the head of the list is
performed first on the image, hence is the outermost map on offsets). -/
def pairsMapOff (t : Nat) : List (Nat × Nat) → Nat → Nat
  | [], p => p
  | pr :: rest, p => pairMapOff t pr.1 pr.2 (pairsMapOff t rest p)

theorem shuffleSectorPair_getD_map (img buf : List Nat) (t a b : Nat)
    (hbuf : buf.length = 256) (ha : a < 16) (hb : b < 16) (hab : a ≠ b)
    (ht : t < 35) (hlen : 143360 ≤ img.length) (p : Nat) :
    (shuffleSectorPair (img, buf) t a b).1.getD p 0 = img.getD (pairMapOff t a b p) 0 := by
  rw [shuffleSectorPair_getD img buf t a b hbuf (by omega) (by omega) hab p]
  simp only [pairMapOff]
  by_cases hA : 4096 * t + 256 * a ≤ p ∧ p < 4096 * t + 256 * a + 256
  · rw [if_pos hA, if_pos hA]
  · rw [if_neg hA, if_neg hA]
    by_cases hB : 4096 * t + 256 * b ≤ p ∧ p < 4096 * t + 256 * b + 256
    · rw [if_pos hB, if_pos hB]
    · rw [if_neg hB, if_neg hB]

/-- Folding a list of rotation groups over the state acts on offsets as
`pairsMapOff`. -/
theorem foldl_shuffleSectorPair_getD (t : Nat) (ht : t < 35) :
    ∀ (L : List (Nat × Nat)) (st : List Nat × List Nat),
      (∀ pr ∈ L, pr.1 < 16 ∧ pr.2 < 16 ∧ pr.1 ≠ pr.2) →
      st.2.length = 256 → 143360 ≤ st.1.length → ∀ p,
      (L.foldl (fun st p => shuffleSectorPair st t p.1 p.2) st).1.getD p 0 =
        st.1.getD (pairsMapOff t L p) 0 := by
  intro L
  induction L with
  | nil => intro st _ _ _ p; rfl
  | cons pr rest ih =>
      intro st hL hbuf hlen p
      simp only [List.foldl_cons, pairsMapOff]
      rw [ih (shuffleSectorPair st t pr.1 pr.2)
            (fun q hq => hL q (List.mem_cons_of_mem pr hq))
            (by rw [length_shuffleSectorPair_snd]; exact hbuf)
            (by rw [length_shuffleSectorPair_fst]; exact hlen) p]
      obtain ⟨h1, h2, h3⟩ := hL pr (List.mem_cons_self pr rest)
      exact shuffleSectorPair_getD_map st.1 st.2 t pr.1 pr.2 hbuf h1 h2 h3 ht hlen
        (pairsMapOff t rest p)

/-- Offset-level action of one whole-track shuffle. -/
def trackMapOff (t p : Nat) : Nat :=
  pairsMapOff t prodosToDos33Pairs p

theorem shuffleTrack_getD (st : List Nat × List Nat) (t : Nat) (ht : t < 35)
    (hbuf : st.2.length = 256) (hlen : 143360 ≤ st.1.length) (p : Nat) :
    (shuffleTrack st t).1.getD p 0 = st.1.getD (trackMapOff t p) 0 := by
  exact foldl_shuffleSectorPair_getD t ht prodosToDos33Pairs st
    (by decide) hbuf hlen p

theorem length_shuffleTrack_fst (st : List Nat × List Nat) (t : Nat) :
    (shuffleTrack st t).1.length = st.1.length := by
  simp only [shuffleTrack]
  induction prodosToDos33Pairs generalizing st with
  | nil => rfl
  | cons pr rest ih =>
      simp only [List.foldl_cons]
      rw [ih (shuffleSectorPair st t pr.1 pr.2), length_shuffleSectorPair_fst]

theorem length_shuffleTrack_snd (st : List Nat × List Nat) (t : Nat) :
    (shuffleTrack st t).2.length = st.2.length := by
  simp only [shuffleTrack]
  induction prodosToDos33Pairs generalizing st with
  | nil => rfl
  | cons pr rest ih =>
      simp only [List.foldl_cons]
      rw [ih (shuffleSectorPair st t pr.1 pr.2), length_shuffleSectorPair_snd]

/-- The sector permutation the seven rotation groups realise: `0` and `15`
are fixed, `1..14` are reflected (`s ↦ 15 - s`). -/
def dos33SectorPerm (s : Nat) : Nat :=
  if s = 0 ∨ s = 15 then s else 15 - s

theorem dos33SectorPerm_lt (s : Nat) (hs : s < 16) : dos33SectorPerm s < 16 := by
  simp only [dos33SectorPerm]
  split_ifs <;> omega

theorem dos33SectorPerm_invol (s : Nat) (hs : s < 16) :
    dos33SectorPerm (dos33SectorPerm s) = s := by
  interval_cases s <;> rfl

theorem pair_mem_facts (a b : Nat) (h : (a, b) ∈ prodosToDos33Pairs) :
    a < 16 ∧ b < 16 ∧ a ≠ b ∧ dos33SectorPerm a = b ∧ dos33SectorPerm b = a := by
  fin_cases h <;> refine ⟨by decide, by decide, by decide, rfl, rfl⟩

theorem pairMapOff_hit (t a b i : Nat) (hi : i < 256) :
    pairMapOff t a b (4096 * t + 256 * a + i) = 4096 * t + 256 * b + i := by
  simp only [pairMapOff]
  split_ifs <;> omega

theorem pairMapOff_hit₂ (t a b i : Nat) (hi : i < 256) (hab : a ≠ b) :
    pairMapOff t a b (4096 * t + 256 * b + i) = 4096 * t + 256 * a + i := by
  simp only [pairMapOff]
  split_ifs <;> omega

theorem pairMapOff_miss (t a b s i : Nat) (hi : i < 256) (hsa : a ≠ s) (hsb : b ≠ s) :
    pairMapOff t a b (4096 * t + 256 * s + i) = 4096 * t + 256 * s + i := by
  simp only [pairMapOff]
  split_ifs <;> omega

theorem pairMapOff_out (t a b p : Nat) (h : p < 4096 * t ∨ 4096 * t + 4096 ≤ p)
    (ha : a < 16) (hb : b < 16) : pairMapOff t a b p = p := by
  simp only [pairMapOff]
  split_ifs <;> omega

theorem trackMapOff_in (t s i : Nat) (hs : s < 16) (hi : i < 256) :
    trackMapOff t (4096 * t + 256 * s + i) = 4096 * t + 256 * dos33SectorPerm s + i := by
  interval_cases s <;>
    (simp only [trackMapOff, prodosToDos33Pairs, pairsMapOff]
     repeat first
       | rw [pairMapOff_miss t _ _ _ i hi (by decide) (by decide)]
       | rw [pairMapOff_hit t _ _ i hi]
       | rw [pairMapOff_hit₂ t _ _ i hi (by decide)]
     simp [dos33SectorPerm])

theorem trackMapOff_out (t p : Nat) (h : p < 4096 * t ∨ 4096 * t + 4096 ≤ p) :
    trackMapOff t p = p := by
  simp only [trackMapOff, prodosToDos33Pairs, pairsMapOff]
  repeat rw [pairMapOff_out t _ _ p h (by decide) (by decide)]

/-- Offset-level action of shuffling a list of tracks (head shuffled first,
hence outermost). -/
def tracksMapOff : List Nat → Nat → Nat
  | [], p => p
  | tr :: rest, p => trackMapOff tr (tracksMapOff rest p)

theorem foldl_shuffleTrack_getD :
    ∀ (L : List Nat) (st : List Nat × List Nat), (∀ tr ∈ L, tr < 35) →
      st.2.length = 256 → 143360 ≤ st.1.length → ∀ p,
      (L.foldl shuffleTrack st).1.getD p 0 = st.1.getD (tracksMapOff L p) 0 := by
  intro L
  induction L with
  | nil => intro st _ _ _ p; rfl
  | cons tr rest ih =>
      intro st hL hbuf hlen p
      simp only [List.foldl_cons, tracksMapOff]
      rw [ih (shuffleTrack st tr) (fun q hq => hL q (List.mem_cons_of_mem tr hq))
            (by rw [length_shuffleTrack_snd]; exact hbuf)
            (by rw [length_shuffleTrack_fst]; exact hlen) p]
      exact shuffleTrack_getD st tr (hL tr (List.mem_cons_self tr rest)) hbuf hlen
        (tracksMapOff rest p)

theorem length_foldl_shuffleTrack :
    ∀ (L : List Nat) (st : List Nat × List Nat),
      (L.foldl shuffleTrack st).1.length = st.1.length := by
  intro L
  induction L with
  | nil => intro st; rfl
  | cons tr rest ih =>
      intro st
      simp only [List.foldl_cons]
      rw [ih (shuffleTrack st tr), length_shuffleTrack_fst]

theorem length_convertDiskImage (diskImage : List Nat) :
    (convertDiskImageFromProdosOrderToDos33Order diskImage).length = diskImage.length := by
  simp only [convertDiskImageFromProdosOrderToDos33Order]
  rw [length_foldl_shuffleTrack]

/-- Pointwise characterisation of the reorder transform: byte `p` of the
converted image is byte `tracksMapOff (List.range 35) p` of the original. -/
theorem convertDiskImage_getD (diskImage : List Nat)
    (hlen : 143360 ≤ diskImage.length) (p : Nat) :
    (convertDiskImageFromProdosOrderToDos33Order diskImage).getD p 0 =
      diskImage.getD (tracksMapOff (List.range 35) p) 0 := by
  simp only [convertDiskImageFromProdosOrderToDos33Order]
  exact foldl_shuffleTrack_getD (List.range 35) (diskImage, List.replicate 256 0)
    (fun tr htr => List.mem_range.mp htr) (List.length_replicate 256 0) hlen p

theorem tracksMapOff_not_mem (t s i : Nat) (hs : s < 16) (hi : i < 256) :
    ∀ (L : List Nat), (∀ tr ∈ L, tr ≠ t) →
      tracksMapOff L (4096 * t + 256 * s + i) = 4096 * t + 256 * s + i := by
  intro L
  induction L with
  | nil => intro _; rfl
  | cons tr rest ih =>
      intro hL
      simp only [tracksMapOff]
      rw [ih (fun q hq => hL q (List.mem_cons_of_mem tr hq))]
      exact trackMapOff_out tr _
        (by have := hL tr (List.mem_cons_self tr rest); omega)

theorem tracksMapOff_mem (t s i : Nat) (hs : s < 16) (hi : i < 256) :
    ∀ (L : List Nat), L.Nodup → t ∈ L →
      tracksMapOff L (4096 * t + 256 * s + i) =
        4096 * t + 256 * dos33SectorPerm s + i := by
  intro L
  induction L with
  | nil => intro _ h; exact absurd h (List.not_mem_nil t)
  | cons tr rest ih =>
      intro hnd hmem
      have hnd' := List.nodup_cons.mp hnd
      simp only [tracksMapOff]
      rcases List.mem_cons.mp hmem with heq | hrest
      · subst heq
        rw [tracksMapOff_not_mem t s i hs hi rest
              (fun q hq => fun he => hnd'.1 (he ▸ hq))]
        exact trackMapOff_in t s i hs hi
      · have htr : tr ≠ t := fun he => hnd'.1 (he ▸ hrest)
        rw [ih hnd'.2 hrest]
        exact trackMapOff_out tr _
          (by have := dos33SectorPerm_lt s hs; omega)

theorem tracksMapOff_ge (p : Nat) (hp : 143360 ≤ p) :
    ∀ (L : List Nat), (∀ tr ∈ L, tr < 35) → tracksMapOff L p = p := by
  intro L
  induction L with
  | nil => intro _; rfl
  | cons tr rest ih =>
      intro hL
      simp only [tracksMapOff]
      rw [ih (fun q hq => hL q (List.mem_cons_of_mem tr hq))]
      exact trackMapOff_out tr p
        (by have := hL tr (List.mem_cons_self tr rest); omega)

/-- C1: after one application of `convertDiskImageFromProdosOrderToDos33Order`
to a disk image containing full sector data for tracks 0..34 (length at least
35 × 4096 = 143360), for every track `t ≤ 34` and every pair `(a, b)` of
`prodosToDos33Pairs` (the pairs (1,14), (2,13), (3,12), (4,11), (5,10),
(6,9), (7,8)), the 256 bytes now at sector `a` of track `t` equal the
original bytes of sector `b` of track `t` and vice versa, and sectors 0 and
15 of every track are byte-identical to their pre-transform content. -/
theorem C1_sector_reorder_swaps (diskImage : List Nat) (t a b i : Nat)
    (hlen : 143360 ≤ diskImage.length) (ht : t ≤ 34)
    (hmem : (a, b) ∈ prodosToDos33Pairs) (hi : i < 256) :
    (convertDiskImageFromProdosOrderToDos33Order diskImage).getD (4096 * t + 256 * a + i) 0 =
        diskImage.getD (4096 * t + 256 * b + i) 0 ∧
    (convertDiskImageFromProdosOrderToDos33Order diskImage).getD (4096 * t + 256 * b + i) 0 =
        diskImage.getD (4096 * t + 256 * a + i) 0 ∧
    (convertDiskImageFromProdosOrderToDos33Order diskImage).getD (4096 * t + 256 * 0 + i) 0 =
        diskImage.getD (4096 * t + 256 * 0 + i) 0 ∧
    (convertDiskImageFromProdosOrderToDos33Order diskImage).getD (4096 * t + 256 * 15 + i) 0 =
        diskImage.getD (4096 * t + 256 * 15 + i) 0 := by
  obtain ⟨ha16, hb16, hab, hpa, hpb⟩ := pair_mem_facts a b hmem
  have htmem : t ∈ List.range 35 := List.mem_range.mpr (by omega)
  have hnd := List.nodup_range 35
  refine ⟨?_, ?_, ?_, ?_⟩
  · rw [convertDiskImage_getD diskImage hlen,
      tracksMapOff_mem t a i ha16 hi (List.range 35) hnd htmem, hpa]
  · rw [convertDiskImage_getD diskImage hlen,
      tracksMapOff_mem t b i hb16 hi (List.range 35) hnd htmem, hpb]
  · rw [convertDiskImage_getD diskImage hlen,
      tracksMapOff_mem t 0 i (by omega) hi (List.range 35) hnd htmem]
    norm_num [dos33SectorPerm]
  · rw [convertDiskImage_getD diskImage hlen,
      tracksMapOff_mem t 15 i (by omega) hi (List.range 35) hnd htmem]
    norm_num [dos33SectorPerm]

/-- Witness for C1: concrete instantiation (image of 143360 zero bytes,
track 3, pair (2,13), byte 5). -/
theorem C1_sector_reorder_swaps_witness :
    143360 ≤ (List.replicate 143360 (0 : Nat)).length ∧ (3 : Nat) ≤ 34 ∧
    ((2, 13) ∈ prodosToDos33Pairs) ∧ (5 : Nat) < 256 ∧
    ((convertDiskImageFromProdosOrderToDos33Order (List.replicate 143360 (0 : Nat))).getD
          (4096 * 3 + 256 * 2 + 5) 0 =
        (List.replicate 143360 (0 : Nat)).getD (4096 * 3 + 256 * 13 + 5) 0) := by
  refine ⟨by rw [List.length_replicate], by omega, by decide, by decide, ?_⟩
  exact (C1_sector_reorder_swaps (List.replicate 143360 0) 3 2 13 5
    (by rw [List.length_replicate]) (by omega) (by decide) (by decide)).1

/-- The offset map of the reorder transform is an involution. -/
theorem tracksMapOff_range_invol (n : Nat) :
    tracksMapOff (List.range 35) (tracksMapOff (List.range 35) n) = n := by
  by_cases hn : n < 143360
  · have hdecomp : n = 4096 * (n / 4096) + 256 * (n % 4096 / 256) + n % 256 := by omega
    have ht : n / 4096 ∈ List.range 35 := List.mem_range.mpr (by omega)
    have hs : n % 4096 / 256 < 16 := by omega
    have hi : n % 256 < 256 := by omega
    rw [hdecomp]
    rw [tracksMapOff_mem _ _ _ hs hi (List.range 35) (List.nodup_range 35) ht]
    rw [tracksMapOff_mem _ _ _ (dos33SectorPerm_lt _ hs) hi (List.range 35)
      (List.nodup_range 35) ht]
    rw [dos33SectorPerm_invol _ hs]
  · have hge : 143360 ≤ n := by omega
    rw [tracksMapOff_ge n hge (List.range 35) (fun tr htr => List.mem_range.mp htr)]
    rw [tracksMapOff_ge n hge (List.range 35) (fun tr htr => List.mem_range.mp htr)]

/-- C10: the reorder transform is an involution: applying
`convertDiskImageFromProdosOrderToDos33Order` twice to any image of length at
least 143360 bytes restores it byte-for-byte. -/
theorem C10_sector_reorder_involution (diskImage : List Nat)
    (hlen : 143360 ≤ diskImage.length) :
    convertDiskImageFromProdosOrderToDos33Order
      (convertDiskImageFromProdosOrderToDos33Order diskImage) = diskImage := by
  have hlen1 : 143360 ≤ (convertDiskImageFromProdosOrderToDos33Order diskImage).length := by
    rw [length_convertDiskImage]; exact hlen
  apply List.ext_getElem
    (by rw [length_convertDiskImage, length_convertDiskImage])
  intro n h1 h2
  rw [← List.getD_eq_getElem _ 0 h1, ← List.getD_eq_getElem _ 0 h2]
  rw [convertDiskImage_getD _ hlen1, convertDiskImage_getD _ hlen]
  rw [tracksMapOff_range_invol n]

/-- Witness for C10: the involution at the concrete all-zero full-size image. -/
theorem C10_sector_reorder_involution_witness :
    convertDiskImageFromProdosOrderToDos33Order
        (convertDiskImageFromProdosOrderToDos33Order (List.replicate 143360 (0 : Nat))) =
      List.replicate 143360 (0 : Nat) :=
  C10_sector_reorder_involution (List.replicate 143360 0) (by rw [List.length_replicate])

/-! ### Decimal rendering (Go `%d`) -/

/-- Decimal digit character. -/
def decDigitChar (d : Nat) : Char := Char.ofNat (48 + d)

/-- Decimal digits of a natural number, most significant first (Go `%d`). -/
def natDecChars (n : Nat) : List Char :=
  if h : n < 10 then [decDigitChar n]
  else natDecChars (n / 10) ++ [decDigitChar (n % 10)]
termination_by n
decreasing_by exact Nat.div_lt_self (by omega) (by omega)

/-- Go `%d` on an `int`: optional minus sign followed by decimal digits. -/
def intDecChars (i : Int) : List Char :=
  if i < 0 then '-' :: natDecChars (-i).toNat else natDecChars i.toNat

/-! ### The memory segment encoder (`writeCommandsToFillAppleMemorySegment`) -/

/-- One emitted memory-fill monitor command: the arguments of the emitting
`writeCommandsToFillAppleMemorySegment` call together with the byte payload
that call slices out of its source.  The text printed for the command is
`renderFillCmd` below. -/
structure FillCmd where
  target : Int
  srcPos : Int
  count : Int
  payload : List Nat
  deriving DecidableEq

/-- End position of the slice taken by the segment encoder:
`sourceBytesStartPos + writeByteCount`, clamped to the source length
("make sure we don't run off the end of sourceBytes"). -/
def clampedEndPos (sourceBytes : List Nat) (sourceBytesStartPos writeByteCount : Int) : Int :=
  if sourceBytesStartPos + writeByteCount > (sourceBytes.length : Int) then
    (sourceBytes.length : Int)
  else sourceBytesStartPos + writeByteCount

/-- The command record built by a successful segment-encoder call: it carries
the call arguments and the payload
`sourceBytes[sourceBytesStartPos : clampedEndPos]`. -/
def clampedFillCmd (sourceBytes : List Nat)
    (targetStartAddress sourceBytesStartPos writeByteCount : Int) : FillCmd :=
  { target := targetStartAddress
    srcPos := sourceBytesStartPos
    count := writeByteCount
    payload := (sourceBytes.drop sourceBytesStartPos.toNat).take
        (clampedEndPos sourceBytes sourceBytesStartPos writeByteCount - sourceBytesStartPos).toNat }

/-- `writeCommandsToFillAppleMemorySegment`: emit one fill command for
`writeByteCount` bytes of `sourceBytes` starting at `sourceBytesStartPos`,
to be stored at `targetStartAddress`.  The end position is clamped to the
source length; the Go slice expression
`sourceBytes[sourceBytesStartPos:sourceBytesEndPos]` aborts with a runtime
panic unless `0 ≤ sourceBytesStartPos ≤ sourceBytesEndPos`, modelled by
`none`. -/
def writeCommandsToFillAppleMemorySegment (sourceBytes : List Nat)
    (targetStartAddress sourceBytesStartPos writeByteCount : Int) : Option FillCmd :=
  if 0 ≤ sourceBytesStartPos ∧
      sourceBytesStartPos ≤ clampedEndPos sourceBytes sourceBytesStartPos writeByteCount then
    some (clampedFillCmd sourceBytes targetStartAddress sourceBytesStartPos writeByteCount)
  else none

/-- Message of the Go runtime panic raised by an out-of-range slice
expression. -/
def slicePanicMessage : List Char := "slice bounds out of range".toList

/-- Message of the Go runtime panic raised by an out-of-range array index. -/
def indexPanicMessage : List Char := "index out of range".toList

/-- Model artifact: the Go `for` loops below do not terminate when the
segment size is not positive; the recursion fuel makes the model total and
strictly dominates the iteration count for every positive segment size. -/
def fuelExhaustedMessage : List Char := "loop fuel exhausted".toList

/-- Panic message of `writeCommandsToLoadDiskTrackToMemory` for a track
number outside `[0, 34]` (Go
`fmt.Sprintf("illegal track number encountered: %d\n", trackNum)`). -/
def illegalTrackNumberMessage (trackNum : Int) : List Char :=
  "illegal track number encountered: ".toList ++ intDecChars trackNum ++ ['\n']

/-- Fuel for the transfer loops: at most `⌈4096 / SEGMENT_SIZE⌉ ≤ 4096`
iterations happen for a positive segment size, so `4200` never runs out. -/
def trackLoaderFuel : Nat := 4200

/-! ### The track loader (`writeCommandsToLoadDiskTrackToMemory`) -/

/-- The `for bytesWritten < 0x1000` loop of
`writeCommandsToLoadDiskTrackToMemory`.  On the first iteration
(`firstCommand`) it emits the nine ramp commands (byte counts
`SEGMENT_SIZE - 8` up to `SEGMENT_SIZE`) before the main command of the
iteration; every iteration emits one main command of `SEGMENT_SIZE` bytes
and advances target address, written count and source position by
`SEGMENT_SIZE`. -/
def loadDiskTrackLoop (diskImage : List Nat) (SEGMENT_SIZE : Int) :
    Nat → Int → Int → Int → Bool → Except (List Char) (List FillCmd)
  | 0, _, _, _, _ => .error fuelExhaustedMessage
  | fuel + 1, bytesWritten, targetStartAddress, sourceBytesStartPos, firstCommand =>
    if bytesWritten < 4096 then
      if firstCommand then
        match writeCommandsToFillAppleMemorySegment diskImage targetStartAddress sourceBytesStartPos (SEGMENT_SIZE - 8),
            writeCommandsToFillAppleMemorySegment diskImage targetStartAddress sourceBytesStartPos (SEGMENT_SIZE - 7),
            writeCommandsToFillAppleMemorySegment diskImage targetStartAddress sourceBytesStartPos (SEGMENT_SIZE - 6),
            writeCommandsToFillAppleMemorySegment diskImage targetStartAddress sourceBytesStartPos (SEGMENT_SIZE - 5),
            writeCommandsToFillAppleMemorySegment diskImage targetStartAddress sourceBytesStartPos (SEGMENT_SIZE - 4),
            writeCommandsToFillAppleMemorySegment diskImage targetStartAddress sourceBytesStartPos (SEGMENT_SIZE - 3),
            writeCommandsToFillAppleMemorySegment diskImage targetStartAddress sourceBytesStartPos (SEGMENT_SIZE - 2),
            writeCommandsToFillAppleMemorySegment diskImage targetStartAddress sourceBytesStartPos (SEGMENT_SIZE - 1),
            writeCommandsToFillAppleMemorySegment diskImage targetStartAddress sourceBytesStartPos SEGMENT_SIZE,
            writeCommandsToFillAppleMemorySegment diskImage targetStartAddress sourceBytesStartPos SEGMENT_SIZE with
        | some c1, some c2, some c3, some c4, some c5, some c6, some c7, some c8, some c9, some cMain =>
          match loadDiskTrackLoop diskImage SEGMENT_SIZE fuel (bytesWritten + SEGMENT_SIZE)
              (targetStartAddress + SEGMENT_SIZE) (sourceBytesStartPos + SEGMENT_SIZE) false with
          | .error e => .error e
          | .ok rest => .ok ([c1, c2, c3, c4, c5, c6, c7, c8, c9, cMain] ++ rest)
        | _, _, _, _, _, _, _, _, _, _ => .error slicePanicMessage
      else
        match writeCommandsToFillAppleMemorySegment diskImage targetStartAddress sourceBytesStartPos SEGMENT_SIZE with
        | none => .error slicePanicMessage
        | some cMain =>
          match loadDiskTrackLoop diskImage SEGMENT_SIZE fuel (bytesWritten + SEGMENT_SIZE)
              (targetStartAddress + SEGMENT_SIZE) (sourceBytesStartPos + SEGMENT_SIZE) false with
          | .error e => .error e
          | .ok rest => .ok (cMain :: rest)
    else .ok []

/-- `writeCommandsToLoadDiskTrackToMemory`: after the `[0, 0x22]` range check
on the track number, transfer the `0x1000` bytes starting at sector 0 of the
track to target address `0x2000` in `SEGMENT_SIZE`-byte commands, preceded by
the ramp. -/
def writeCommandsToLoadDiskTrackToMemory (diskImage : List Nat)
    (trackNum SEGMENT_SIZE : Int) : Except (List Char) (List FillCmd) :=
  if trackNum < 0 ∨ 0x22 < trackNum then .error (illegalTrackNumberMessage trackNum)
  else
    loadDiskTrackLoop diskImage SEGMENT_SIZE trackLoaderFuel 0 0x2000
      (diskImageStartPosOfTrackSector trackNum 0x00) true

/-! ### The client program loader (`writeCommandsToLoadRWTSClientProgramToMemory`) -/

/-- The plain segment-transfer loop (no ramp): while `bytesWritten < limit`,
emit one command of `SEGMENT_SIZE` bytes and advance target address, written
count and source position by `SEGMENT_SIZE`.  This is the loop shape of
`writeCommandsToLoadRWTSClientProgramToMemory` (with `limit` the client
program length); the steady state of the track loader has the same shape
with `limit = 4096`. -/
def fillSegmentLoop (sourceBytes : List Nat) (SEGMENT_SIZE limit : Int) :
    Nat → Int → Int → Int → Except (List Char) (List FillCmd)
  | 0, _, _, _ => .error fuelExhaustedMessage
  | fuel + 1, bytesWritten, targetStartAddress, sourceBytesStartPos =>
    if bytesWritten < limit then
      match writeCommandsToFillAppleMemorySegment sourceBytes targetStartAddress sourceBytesStartPos SEGMENT_SIZE with
      | none => .error slicePanicMessage
      | some c =>
        match fillSegmentLoop sourceBytes SEGMENT_SIZE limit fuel (bytesWritten + SEGMENT_SIZE)
            (targetStartAddress + SEGMENT_SIZE) (sourceBytesStartPos + SEGMENT_SIZE) with
        | .error e => .error e
        | .ok rest => .ok (c :: rest)
    else .ok []

/-- `trackNumArray`: lookup from a track number to the byte patched into the
client program (`'\x00'` through `'\x22'`, the identity on `[0, 34]`). -/
def trackNumArray : List Nat :=
  [0x00, 0x01, 0x02, 0x03, 0x04, 0x05, 0x06, 0x07, 0x08, 0x09, 0x0A, 0x0B, 0x0C, 0x0D,
   0x0E, 0x0F, 0x10, 0x11, 0x12, 0x13, 0x14, 0x15, 0x16, 0x17, 0x18, 0x19, 0x1A, 0x1B,
   0x1C, 0x1D, 0x1E, 0x1F, 0x20, 0x21, 0x22]

/-- `clientProgram`: the fixed machine-code routine calling RWTS 16 times,
with the track-number byte (`trackNumByte`) patched into the IOB at byte
offset 32. -/
def clientProgram (trackNumByte : Nat) : List Nat :=
  [0xA9, 0x0C,
   0xA0, 0x1C,
   0x20, 0xD9, 0x03,
   0xB0, 0x12,
   0xA9, 0x0F,
   0xCD, 0x21, 0x0C,
   0xF0, 0x0A,
   0xEE, 0x21, 0x0C,
   0xEE, 0x25, 0x0C,
   0xF0, 0xE8,
   0xD0, 0xE6,
   0x60,
   0x00,
   0x01, 0x60, 0x01, 0x00, trackNumByte, 0x00,
   0x30, 0x0C,
   0x00, 0x20,
   0x00, 0x00, 0x02,
   0x00, 0x00, 0x60, 0x01,
   0x00, 0x00, 0x00,
   0x00, 0x01, 0xEF, 0xD8]

/-- `writeCommandsToLoadRWTSClientProgramToMemory`: look the track byte up in
`trackNumArray` (the Go array index panics outside `[0, 34]`), build the
client program, and transfer it to target address `0x0C00` in
`SEGMENT_SIZE`-byte commands. -/
def writeCommandsToLoadRWTSClientProgramToMemory (trackNum SEGMENT_SIZE : Int) :
    Except (List Char) (List FillCmd) :=
  if 0 ≤ trackNum ∧ trackNum < 35 then
    fillSegmentLoop (clientProgram (trackNumArray.getD trackNum.toNat 0)) SEGMENT_SIZE
      ((clientProgram (trackNumArray.getD trackNum.toNat 0)).length : Int)
      trackLoaderFuel 0 0x0C00 0
  else .error indexPanicMessage

/-! ### Line rendering -/

/-- `generateLineStartPad`: the fixed 16-space pad prepended to every line
(`LINE_START_PAD_LENGTH = 16`). -/
def generateLineStartPad : List Char := List.replicate 16 ' '

/-- Hexadecimal digit character, uppercase (Go `%X`). -/
def hexDigitChar (d : Nat) : Char :=
  if d < 10 then Char.ofNat (48 + d) else Char.ofNat (55 + d)

/-- Uppercase hexadecimal digits of a natural number, most significant
first, no leading zeros (Go `%X`). -/
def natHexChars (n : Nat) : List Char :=
  if h : n < 16 then [hexDigitChar n]
  else natHexChars (n / 16) ++ [hexDigitChar (n % 16)]
termination_by n
decreasing_by exact Nat.div_lt_self (by omega) (by omega)

/-- Go `%02X` on a non-negative value: uppercase hexadecimal, zero-padded to
at least two digits, no prefix. -/
def sprintfHex02 (n : Nat) : List Char :=
  if n < 16 then ['0', hexDigitChar n] else natHexChars n

/-- `generateMemoryAddress`: empty for a negative target address, otherwise
the `%02X` rendering. -/
def generateMemoryAddress (targetStartAddress : Int) : List Char :=
  if targetStartAddress < 0 then [] else sprintfHex02 targetStartAddress.toNat

/-- `generateByteWriteGroupStringFromBytes`: the payload bytes as `%02X`
groups, space-separated, with no separator after the final byte. -/
def generateByteWriteGroupStringFromBytes : List Nat → List Char
  | [] => []
  | [b] => sprintfHex02 b
  | b :: rest => sprintfHex02 b ++ ' ' :: generateByteWriteGroupStringFromBytes rest

/-- The text printed for one fill command:
`fmt.Printf("%s%s:%s\r", lineStartPad, memoryAddress, byteWriteGroupString)`. -/
def renderFillCmd (lineStartPad : List Char) (c : FillCmd) : List Char :=
  lineStartPad ++ generateMemoryAddress c.target ++
    ':' :: generateByteWriteGroupStringFromBytes c.payload ++ ['\r']

/-- `executeClient`: the single line `fmt.Printf("%sC00G\r", lineStartPad)`
that starts the loaded routine (the stderr diagnostic is out of scope). -/
def executeClient : List Char :=
  generateLineStartPad ++ ['C', '0', '0', 'G', '\r']

/-- The lines `main` writes to standard output for one run (after the image
has been read): the image is reordered once, then the track loader, the
client loader and the executor print their lines in that order;
`SEGMENT_SIZE = 8` as in `main`. -/
def programOutputLines (diskImage : List Nat) (trackNum : Int) :
    Except (List Char) (List (List Char)) :=
  match writeCommandsToLoadDiskTrackToMemory
      (convertDiskImageFromProdosOrderToDos33Order diskImage) trackNum 8 with
  | .error e => .error e
  | .ok trackCmds =>
    match writeCommandsToLoadRWTSClientProgramToMemory trackNum 8 with
    | .error e => .error e
    | .ok clientCmds =>
      .ok (trackCmds.map (renderFillCmd generateLineStartPad) ++
        clientCmds.map (renderFillCmd generateLineStartPad) ++ [executeClient])

/-! ### Characterisation of the transfer loops -/

theorem fillSegment_some (sourceBytes : List Nat) (tgt sp c : Int)
    (h0 : 0 ≤ sp) (hle : sp ≤ (sourceBytes.length : Int)) (hc : 0 ≤ c) :
    writeCommandsToFillAppleMemorySegment sourceBytes tgt sp c =
      some (clampedFillCmd sourceBytes tgt sp c) := by
  have hend : sp ≤ clampedEndPos sourceBytes sp c := by
    simp only [clampedEndPos]
    split_ifs <;> omega
  simp only [writeCommandsToFillAppleMemorySegment]
  rw [if_pos ⟨h0, hend⟩]

/-- The command list produced by `N` steady-state iterations starting at the
given target address and source position. -/
def expectedMains (sourceBytes : List Nat) (s : Int) : Nat → Int → Int → List FillCmd
  | 0, _, _ => []
  | N + 1, tgt, sp =>
      clampedFillCmd sourceBytes tgt sp s :: expectedMains sourceBytes s N (tgt + s) (sp + s)

theorem expectedMains_length (sourceBytes : List Nat) (s : Int) :
    ∀ (N : Nat) (tgt sp : Int), (expectedMains sourceBytes s N tgt sp).length = N := by
  intro N
  induction N with
  | zero => intro tgt sp; rfl
  | succ N ih =>
      intro tgt sp
      simp only [expectedMains, List.length_cons, ih]

theorem expectedMains_count (sourceBytes : List Nat) (s : Int) :
    ∀ (N : Nat) (tgt sp : Int), ∀ c ∈ expectedMains sourceBytes s N tgt sp, c.count = s := by
  intro N
  induction N with
  | zero => intro tgt sp c hc; exact absurd hc (List.not_mem_nil c)
  | succ N ih =>
      intro tgt sp c hc
      rcases List.mem_cons.mp hc with h | h
      · rw [h]; rfl
      · exact ih (tgt + s) (sp + s) c h

theorem expectedMains_getElem? (sourceBytes : List Nat) (s : Int) :
    ∀ (N : Nat) (tgt sp : Int) (k : Nat), k < N →
      (expectedMains sourceBytes s N tgt sp)[k]? =
        some (clampedFillCmd sourceBytes (tgt + s * k) (sp + s * k) s) := by
  intro N
  induction N with
  | zero => intro tgt sp k hk; omega
  | succ N ih =>
      intro tgt sp k hk
      match k with
      | 0 => simp [expectedMains]
      | k + 1 =>
          simp only [expectedMains, List.getElem?_cons_succ]
          rw [ih (tgt + s) (sp + s) k (by omega)]
          have h1 : tgt + s + s * (k : Int) = tgt + s * ((k : Nat) + 1 : Nat) := by
            push_cast; ring
          have h2 : sp + s + s * (k : Int) = sp + s * ((k : Nat) + 1 : Nat) := by
            push_cast; ring
          rw [h1, h2]

/-- The plain transfer loop runs exactly `N` iterations, where
`limit ≤ bytesWritten + N·s < limit + s`, and produces the steady-state
command list. -/
theorem fillSegmentLoop_spec (sourceBytes : List Nat) (s limit : Int) (hs : 1 ≤ s) :
    ∀ (N : Nat) (fuel : Nat) (bw tgt sp : Int), N < fuel →
      0 ≤ sp → sp + (limit - bw) ≤ (sourceBytes.length : Int) →
      limit ≤ bw + N * s → bw + N * s < limit + s →
      fillSegmentLoop sourceBytes s limit fuel bw tgt sp =
        .ok (expectedMains sourceBytes s N tgt sp) := by
  intro N
  induction N with
  | zero =>
      intro fuel bw tgt sp hfuel hsp hub h1 h2
      match fuel with
      | f + 1 =>
          simp only [fillSegmentLoop]
          rw [if_neg (by omega)]
          rfl
  | succ N ih =>
      intro fuel bw tgt sp hfuel hsp hub h1 h2
      have hNs0 : 0 ≤ (N : Int) * s :=
        mul_nonneg (Int.natCast_nonneg N) (by omega)
      have hcast : ((N + 1 : Nat) : Int) * s = (N : Int) * s + s := by push_cast; ring
      rw [hcast] at h1 h2
      have hbw : bw < limit := by linarith
      match fuel with
      | f + 1 =>
          simp only [fillSegmentLoop]
          rw [if_pos hbw]
          rw [fillSegment_some sourceBytes tgt sp s hsp (by omega) (by omega)]
          rw [ih f (bw + s) (tgt + s) (sp + s) (by omega) (by omega) (by omega)
            (by linarith) (by linarith)]
          rfl

/-- The steady state of the track-loader loop is the plain transfer loop
with `limit = 4096`. -/
theorem loadDiskTrackLoop_false_eq (diskImage : List Nat) (s : Int) :
    ∀ (fuel : Nat) (bw tgt sp : Int),
      loadDiskTrackLoop diskImage s fuel bw tgt sp false =
        fillSegmentLoop diskImage s 4096 fuel bw tgt sp := by
  intro fuel
  induction fuel with
  | zero => intro bw tgt sp; rfl
  | succ f ih =>
      intro bw tgt sp
      simp only [loadDiskTrackLoop, fillSegmentLoop, Bool.false_eq_true, if_false]
      by_cases hbw : bw < 4096
      · rw [if_pos hbw, if_pos hbw]
        cases writeCommandsToFillAppleMemorySegment diskImage tgt sp s with
        | none => rfl
        | some c => rw [ih (bw + s) (tgt + s) (sp + s)]
      · rw [if_neg hbw, if_neg hbw]

/-- The nine ramp commands the track loader emits on its first iteration:
byte counts `SEGMENT_SIZE - 8` up to `SEGMENT_SIZE`, all with the initial
target address `0x2000` and the initial source position `4096·t`. -/
def rampCmds (diskImage : List Nat) (t s : Int) : List FillCmd :=
  [clampedFillCmd diskImage 0x2000 (4096 * t) (s - 8),
   clampedFillCmd diskImage 0x2000 (4096 * t) (s - 7),
   clampedFillCmd diskImage 0x2000 (4096 * t) (s - 6),
   clampedFillCmd diskImage 0x2000 (4096 * t) (s - 5),
   clampedFillCmd diskImage 0x2000 (4096 * t) (s - 4),
   clampedFillCmd diskImage 0x2000 (4096 * t) (s - 3),
   clampedFillCmd diskImage 0x2000 (4096 * t) (s - 2),
   clampedFillCmd diskImage 0x2000 (4096 * t) (s - 1),
   clampedFillCmd diskImage 0x2000 (4096 * t) s]

/-- Full characterisation of the track loader on an in-range track, a
segment size of at least 8, and an image covering the track: the output is
the nine ramp commands followed by `M` steady-state commands, where `M` is
the iteration count determined by `4096 ≤ M·s < 4096 + s`. -/
theorem writeCommandsToLoadDiskTrackToMemory_spec (diskImage : List Nat)
    (t s : Int) (M : Nat) (h0 : 0 ≤ t) (h34 : t ≤ 34) (hs : 8 ≤ s)
    (hlen : 4096 * t + 4096 ≤ (diskImage.length : Int))
    (hM1 : 4096 ≤ (M : Int) * s) (hM2 : (M : Int) * s < 4096 + s) :
    writeCommandsToLoadDiskTrackToMemory diskImage t s =
      .ok (rampCmds diskImage t s ++ expectedMains diskImage s M 0x2000 (4096 * t)) := by
  have hMpos : 1 ≤ M := by
    rcases Nat.eq_zero_or_pos M with h | h
    · subst h; simp only [Nat.cast_zero, zero_mul] at hM1; omega
    · exact h
  obtain ⟨M', rfl⟩ : ∃ M', M = M' + 1 := ⟨M - 1, by omega⟩
  have hcast : ((M' + 1 : Nat) : Int) * s = (M' : Int) * s + s := by push_cast; ring
  rw [hcast] at hM1 hM2
  have hM'le : (M' : Int) ≤ 4096 := by
    have hs0 : (0 : Int) ≤ s := by omega
    by_contra hgt
    push_neg at hgt
    have : (4096 : Int) * s ≤ (M' : Int) * s :=
      mul_le_mul_of_nonneg_right (by omega) hs0
    nlinarith
  have hsp0 : diskImageStartPosOfTrackSector t 0 = 4096 * t := by
    simp [diskImageStartPosOfTrackSector]
  have hspnn : (0 : Int) ≤ 4096 * t := by omega
  have hsple : 4096 * t ≤ (diskImage.length : Int) := by omega
  simp only [writeCommandsToLoadDiskTrackToMemory]
  rw [if_neg (by omega), hsp0, show trackLoaderFuel = 4199 + 1 from rfl]
  rw [loadDiskTrackLoop]
  rw [if_pos (show (0 : Int) < 4096 by norm_num), if_pos rfl]
  rw [fillSegment_some diskImage 0x2000 (4096 * t) (s - 8) hspnn hsple (by omega),
    fillSegment_some diskImage 0x2000 (4096 * t) (s - 7) hspnn hsple (by omega),
    fillSegment_some diskImage 0x2000 (4096 * t) (s - 6) hspnn hsple (by omega),
    fillSegment_some diskImage 0x2000 (4096 * t) (s - 5) hspnn hsple (by omega),
    fillSegment_some diskImage 0x2000 (4096 * t) (s - 4) hspnn hsple (by omega),
    fillSegment_some diskImage 0x2000 (4096 * t) (s - 3) hspnn hsple (by omega),
    fillSegment_some diskImage 0x2000 (4096 * t) (s - 2) hspnn hsple (by omega),
    fillSegment_some diskImage 0x2000 (4096 * t) (s - 1) hspnn hsple (by omega),
    fillSegment_some diskImage 0x2000 (4096 * t) s hspnn hsple (by omega)]
  rw [loadDiskTrackLoop_false_eq diskImage s 4199 (0 + s) (0x2000 + s) (4096 * t + s)]
  rw [fillSegmentLoop_spec diskImage s 4096 (by omega) M' 4199 (0 + s) (0x2000 + s)
    (4096 * t + s) (by omega) (by omega) (by omega) (by omega) (by omega)]
  rfl

/-- For every positive limit and segment size there is an iteration count
`M` with `limit ≤ M·s < limit + s`. -/
theorem exists_iter_count (limit s : Int) (hlim : 1 ≤ limit) (hs : 1 ≤ s) :
    ∃ M : Nat, limit ≤ (M : Int) * s ∧ (M : Int) * s < limit + s := by
  have hdm : s * (limit / s) + limit % s = limit := Int.ediv_add_emod limit s
  have hmod0 : 0 ≤ limit % s := Int.emod_nonneg limit (by omega)
  have hmods : limit % s < s := Int.emod_lt_of_pos limit (by omega)
  have hq0 : 0 ≤ limit / s := Int.ediv_nonneg (by omega) (by omega)
  by_cases hr : limit % s = 0
  · refine ⟨(limit / s).toNat, ?_, ?_⟩ <;>
      (rw [Int.toNat_of_nonneg hq0]
       have hc : limit / s * s = s * (limit / s) := mul_comm _ _
       rw [hc]
       omega)
  · refine ⟨(limit / s + 1).toNat, ?_, ?_⟩ <;>
      (rw [Int.toNat_of_nonneg (by omega)]
       have hc : (limit / s + 1) * s = s * (limit / s) + s := by ring
       rw [hc]
       omega)

theorem length_clientProgram (trackNumByte : Nat) :
    (clientProgram trackNumByte).length = 52 := rfl

/-- Full characterisation of the client program loader on an in-range track
and a positive segment size: the output is the `M` chunk commands determined
by `52 ≤ M·s < 52 + s`, starting at target address `0x0C00` and source
position 0, with no ramp. -/
theorem writeCommandsToLoadRWTSClientProgramToMemory_spec (t s : Int) (M : Nat)
    (h0 : 0 ≤ t) (h34 : t ≤ 34) (hs : 1 ≤ s)
    (hM1 : 52 ≤ (M : Int) * s) (hM2 : (M : Int) * s < 52 + s) :
    writeCommandsToLoadRWTSClientProgramToMemory t s =
      .ok (expectedMains (clientProgram (trackNumArray.getD t.toNat 0)) s M 0x0C00 0) := by
  have hM'le : (M : Int) ≤ 52 := by
    have hs0 : (0 : Int) ≤ s := by omega
    by_contra hgt
    push_neg at hgt
    have h53 : (53 : Int) ≤ (M : Int) := by omega
    have : (53 : Int) * s ≤ (M : Int) * s := mul_le_mul_of_nonneg_right h53 hs0
    nlinarith
  have hfuel : M < trackLoaderFuel := by
    unfold trackLoaderFuel
    omega
  simp only [writeCommandsToLoadRWTSClientProgramToMemory]
  rw [if_pos ⟨h0, by omega⟩, length_clientProgram]
  exact fillSegmentLoop_spec (clientProgram (trackNumArray.getD t.toNat 0)) s 52
    (by omega) M trackLoaderFuel 0 0x0C00 0 hfuel (by omega)
    (by rw [length_clientProgram]; omega) (by omega) (by omega)

/-- C2 (amended: for segment sizes `s ≥ 8`; smaller segment sizes abort on
the negative byte count of the first ramp command): for every track in
`[0, 34]` on a full image, the ramp commands emitted before steady-state
transfer — the first nine commands — all use the source offset of the first
chunk (`4096·t`, the start of sector 0 of the track) and the target address
`0x2000` unmodified, and their byte counts increase consecutively from
`s - 8` through `s` inclusive, in that order. -/
theorem C2_ramp_structure (diskImage : List Nat) (t s : Int)
    (h0 : 0 ≤ t) (h34 : t ≤ 34) (hs : 8 ≤ s)
    (hlen : 143360 ≤ (diskImage.length : Int)) :
    ∃ cmds, writeCommandsToLoadDiskTrackToMemory diskImage t s = .ok cmds ∧
      (cmds.take 9).map FillCmd.count =
        [s - 8, s - 7, s - 6, s - 5, s - 4, s - 3, s - 2, s - 1, s] ∧
      ∀ c ∈ cmds.take 9, c.target = 0x2000 ∧ c.srcPos = 4096 * t := by
  obtain ⟨M, hM1, hM2⟩ := exists_iter_count 4096 s (by norm_num) (by omega)
  refine ⟨rampCmds diskImage t s ++ expectedMains diskImage s M 0x2000 (4096 * t),
    writeCommandsToLoadDiskTrackToMemory_spec diskImage t s M h0 h34 hs (by omega) hM1 hM2,
    ?_, ?_⟩ <;>
    rw [show (9 : Nat) = (rampCmds diskImage t s).length from rfl, List.take_left]
  · rfl
  · intro c hc
    fin_cases hc <;> exact ⟨rfl, rfl⟩

/-- Counterexample to C2 as stated: with segment size 4 the first ramp
command requests `4 - 8 = -4` bytes and the track loader aborts with the Go
slice panic instead of emitting ramp commands with byte counts `-4 … 4`. -/
theorem C2_ramp_cex :
    writeCommandsToLoadDiskTrackToMemory (List.replicate 143360 0) 0 4 =
      .error slicePanicMessage := by
  have hnone : writeCommandsToFillAppleMemorySegment (List.replicate 143360 0) 0x2000
      (diskImageStartPosOfTrackSector 0 0) (4 - 8) = none := by
    simp only [writeCommandsToFillAppleMemorySegment, clampedEndPos,
      diskImageStartPosOfTrackSector, List.length_replicate]
    norm_num
  simp only [writeCommandsToLoadDiskTrackToMemory]
  rw [if_neg (by norm_num), show trackLoaderFuel = 4199 + 1 from rfl]
  rw [loadDiskTrackLoop]
  rw [if_pos (show (0 : Int) < 4096 by norm_num), if_pos rfl]
  rw [hnone]

/-- Witness for C2 at track 0, segment size 8, on the all-zero image. -/
theorem C2_ramp_structure_witness :
    ∃ cmds, writeCommandsToLoadDiskTrackToMemory (List.replicate 143360 0) 0 8 = .ok cmds ∧
      (cmds.take 9).map FillCmd.count = [0, 1, 2, 3, 4, 5, 6, 7, 8] ∧
      ∀ c ∈ cmds.take 9, c.target = 0x2000 ∧ c.srcPos = 4096 * 0 := by
  obtain ⟨cmds, h1, h2, h3⟩ := C2_ramp_structure (List.replicate 143360 0) 0 8 (by norm_num)
    (by norm_num) (by norm_num) (by rw [List.length_replicate]; norm_num)
  exact ⟨cmds, h1, by rw [h2]; norm_num, h3⟩

/-- C3 (amended: 9 ramp commands, not 8, and segment size at least 8 —
smaller divisors of 4096 abort on the negative byte count of the first ramp
command): for every valid track `t` and every segment size `s ≥ 8` that
evenly divides 4096, the track loader emits exactly `4096 / s` main
(steady-state) commands — the commands after the ramp, each of byte count
`s` — plus exactly 9 ramp commands, `4096 / s + 9` commands in total. -/
theorem C3_command_counts (diskImage : List Nat) (t s : Int)
    (h0 : 0 ≤ t) (h34 : t ≤ 34) (hs : 8 ≤ s) (hdvd : s ∣ 4096)
    (hlen : 143360 ≤ (diskImage.length : Int)) :
    ∃ cmds, writeCommandsToLoadDiskTrackToMemory diskImage t s = .ok cmds ∧
      (cmds.length : Int) = 4096 / s + 9 ∧
      (cmds.take 9).length = 9 ∧
      ∀ c ∈ cmds.drop 9, c.count = s := by
  have hqnn : 0 ≤ (4096 : Int) / s := Int.ediv_nonneg (by norm_num) (by omega)
  have hqcast : (((4096 : Int) / s).toNat : Int) = (4096 : Int) / s :=
    Int.toNat_of_nonneg hqnn
  have hqs : ((4096 : Int) / s) * s = 4096 := Int.ediv_mul_cancel hdvd
  have hM1 : (4096 : Int) ≤ (((4096 : Int) / s).toNat : Int) * s := by
    rw [hqcast, hqs]
  have hM2 : (((4096 : Int) / s).toNat : Int) * s < 4096 + s := by
    rw [hqcast, hqs]; omega
  refine ⟨rampCmds diskImage t s ++
      expectedMains diskImage s ((4096 : Int) / s).toNat 0x2000 (4096 * t),
    writeCommandsToLoadDiskTrackToMemory_spec diskImage t s ((4096 : Int) / s).toNat
      h0 h34 hs (by omega) hM1 hM2, ?_, ?_, ?_⟩
  · rw [List.length_append, expectedMains_length,
      show (rampCmds diskImage t s).length = 9 from rfl]
    push_cast [hqcast]
    omega
  · rw [show (9 : Nat) = (rampCmds diskImage t s).length from rfl, List.take_left]
  · rw [show (9 : Nat) = (rampCmds diskImage t s).length from rfl, List.drop_left]
    exact expectedMains_count diskImage s _ 0x2000 (4096 * t)

/-- Counterexample to C3 as stated: at track 0 and segment size 8 the track
loader emits 521 commands (nine ramp commands plus `4096 / 8 = 512` main
commands), not the `512 + 8 = 520` the claim asserts. -/
theorem C3_command_counts_cex :
    (writeCommandsToLoadDiskTrackToMemory (List.replicate 143360 0) 0 8).map List.length =
      .ok 521 ∧
    (writeCommandsToLoadDiskTrackToMemory (List.replicate 143360 0) 0 8).map List.length ≠
      .ok (512 + 8) := by
  have hspec := writeCommandsToLoadDiskTrackToMemory_spec (List.replicate 143360 0) 0 8 512
    (by norm_num) (by norm_num) (by norm_num)
    (by rw [List.length_replicate]; norm_num) (by norm_num) (by norm_num)
  have h1 : (writeCommandsToLoadDiskTrackToMemory (List.replicate 143360 0) 0 8).map
      List.length = .ok 521 := by
    rw [hspec]
    show Except.ok ((rampCmds (List.replicate 143360 0) 0 8 ++
      expectedMains (List.replicate 143360 0) 8 512 0x2000 (4096 * 0)).length) = .ok 521
    rw [List.length_append, expectedMains_length,
      show (rampCmds (List.replicate 143360 0) 0 8).length = 9 from rfl]
  exact ⟨h1, by rw [h1]; intro hcon; injection hcon with hv; omega⟩

/-- Witness for C3 at track 0, segment size 8, on the all-zero image. -/
theorem C3_command_counts_witness :
    ∃ cmds, writeCommandsToLoadDiskTrackToMemory (List.replicate 143360 0) 0 8 = .ok cmds ∧
      (cmds.length : Int) = 4096 / 8 + 9 ∧
      (cmds.take 9).length = 9 ∧
      ∀ c ∈ cmds.drop 9, c.count = 8 :=
  C3_command_counts (List.replicate 143360 0) 0 8 (by norm_num) (by norm_num) (by norm_num)
    (by norm_num) (by rw [List.length_replicate]; norm_num)

theorem clampedFillCmd_payload_of_le (src : List Nat) (tgt sp c : Int)
    (h0 : 0 ≤ sp) (hc : 0 ≤ c) (hle : sp + c ≤ (src.length : Int)) :
    (clampedFillCmd src tgt sp c).payload = (src.drop sp.toNat).take c.toNat := by
  simp only [clampedFillCmd, clampedEndPos]
  rw [if_neg (by omega)]
  congr 1
  omega

theorem clampedFillCmd_payload_length_of_le (src : List Nat) (tgt sp c : Int)
    (h0 : 0 ≤ sp) (hc : 0 ≤ c) (hle : sp + c ≤ (src.length : Int)) :
    (clampedFillCmd src tgt sp c).payload.length = c.toNat := by
  rw [clampedFillCmd_payload_of_le src tgt sp c h0 hc hle,
    List.length_take, List.length_drop]
  rw [min_eq_left (by omega)]

/-- Concatenating the payloads of `N` unclamped steady-state commands gives
the contiguous `N·s`-byte slice of the source starting at the initial source
position. -/
theorem expectedMains_flatten (src : List Nat) (s : Int) (hs : 0 ≤ s) :
    ∀ (N : Nat) (tgt sp : Int), 0 ≤ sp → sp + N * s ≤ (src.length : Int) →
      ((expectedMains src s N tgt sp).map FillCmd.payload).flatten =
        (src.drop sp.toNat).take (N * s.toNat) := by
  intro N
  induction N with
  | zero => intro tgt sp _ _; simp [expectedMains]
  | succ N ih =>
      intro tgt sp h0 hub
      have hNs0 : 0 ≤ (N : Int) * s := mul_nonneg (Int.natCast_nonneg N) hs
      have hcast : ((N + 1 : Nat) : Int) * s = (N : Int) * s + s := by push_cast; ring
      rw [hcast] at hub
      simp only [expectedMains, List.map_cons, List.flatten_cons]
      rw [ih (tgt + s) (sp + s) (by omega) (by linarith)]
      rw [clampedFillCmd_payload_of_le src tgt sp s h0 hs (by linarith)]
      have h1 : (sp + s).toNat = sp.toNat + s.toNat := by omega
      rw [h1, ← List.drop_drop, ← List.take_add]
      congr 1
      ring

theorem expectedMains_payload_length (src : List Nat) (s : Int) (hs : 0 ≤ s) :
    ∀ (N : Nat) (tgt sp : Int), 0 ≤ sp → sp + N * s ≤ (src.length : Int) →
      ∀ c ∈ expectedMains src s N tgt sp, c.payload.length = s.toNat := by
  intro N
  induction N with
  | zero => intro tgt sp _ _ c hc; exact absurd hc (List.not_mem_nil c)
  | succ N ih =>
      intro tgt sp h0 hub c hc
      have hNs0 : 0 ≤ (N : Int) * s := mul_nonneg (Int.natCast_nonneg N) hs
      have hcast : ((N + 1 : Nat) : Int) * s = (N : Int) * s + s := by push_cast; ring
      rw [hcast] at hub
      rcases List.mem_cons.mp hc with h | h
      · rw [h]
        exact clampedFillCmd_payload_length_of_le src tgt sp s h0 hs (by linarith)
      · exact ih (tgt + s) (sp + s) (by omega) (by linarith) c h

/-- C4: for every valid track on an image containing the full track, the
main (non-ramp) commands of the track loader at the default segment size 8
carry exactly 8 bytes each, their target addresses advance from `0x2000` and
their source offsets from `4096·t` in steps of 8, and concatenating their
payloads in emission order reproduces the original 4096-byte track slice
exactly. -/
theorem C4_main_transfer (diskImage : List Nat) (t : Int)
    (h0 : 0 ≤ t) (h34 : t ≤ 34)
    (hlen : 4096 * t + 4096 ≤ (diskImage.length : Int)) :
    ∃ cmds, writeCommandsToLoadDiskTrackToMemory diskImage t 8 = .ok cmds ∧
      ((cmds.drop 9).map FillCmd.payload).flatten =
        (diskImage.drop (4096 * t).toNat).take 4096 ∧
      (∀ c ∈ cmds.drop 9, c.payload.length = 8 ∧ c.count = 8) ∧
      (∀ (k : Nat) (c : FillCmd), (cmds.drop 9)[k]? = some c →
        c.target = 0x2000 + 8 * (k : Int) ∧ c.srcPos = 4096 * t + 8 * (k : Int)) := by
  have hbound : 4096 * t + (512 : Nat) * (8 : Int) ≤ (diskImage.length : Int) := by
    push_cast
    omega
  refine ⟨rampCmds diskImage t 8 ++ expectedMains diskImage 8 512 0x2000 (4096 * t),
    writeCommandsToLoadDiskTrackToMemory_spec diskImage t 8 512 h0 h34 (by norm_num)
      hlen (by norm_num) (by norm_num), ?_, ?_, ?_⟩ <;>
    rw [show (9 : Nat) = (rampCmds diskImage t 8).length from rfl, List.drop_left]
  · rw [expectedMains_flatten diskImage 8 (by norm_num) 512 0x2000 (4096 * t)
      (by omega) hbound]
    rw [show 512 * Int.toNat 8 = 4096 from rfl]
  · intro c hc
    refine ⟨?_, expectedMains_count diskImage 8 512 0x2000 (4096 * t) c hc⟩
    have := expectedMains_payload_length diskImage 8 (by norm_num) 512 0x2000 (4096 * t)
      (by omega) hbound c hc
    simpa using this
  · intro k c hkc
    have hk : k < 512 := by
      by_contra hge
      rw [List.getElem?_eq_none (by rw [expectedMains_length]; omega)] at hkc
      exact Option.noConfusion hkc
    rw [expectedMains_getElem? diskImage 8 512 0x2000 (4096 * t) k hk] at hkc
    injection hkc with hcc
    subst hcc
    exact ⟨by norm_num [clampedFillCmd, mul_comm], by norm_num [clampedFillCmd, mul_comm]⟩

/-- Witness for C4 at track 0 on an image of exactly one track of zeros. -/
theorem C4_main_transfer_witness :
    ∃ cmds, writeCommandsToLoadDiskTrackToMemory (List.replicate 4096 0) 0 8 = .ok cmds ∧
      ((cmds.drop 9).map FillCmd.payload).flatten =
        ((List.replicate 4096 (0 : Nat)).drop ((4096 : Int) * 0).toNat).take 4096 ∧
      (∀ c ∈ cmds.drop 9, c.payload.length = 8 ∧ c.count = 8) ∧
      (∀ (k : Nat) (c : FillCmd), (cmds.drop 9)[k]? = some c →
        c.target = 0x2000 + 8 * (k : Int) ∧ c.srcPos = 4096 * 0 + 8 * (k : Int)) :=
  C4_main_transfer (List.replicate 4096 0) 0 (by norm_num) (by norm_num)
    (by rw [List.length_replicate]; norm_num)

/-- C7: on a full image and the program's segment size 8, the track loader
fails fatally if and only if the requested track is outside `[0, 34]`, and
the fatal message is `illegalTrackNumberMessage t` — the Go panic text
naming the offending track value; for every in-range track no error is
raised. -/
theorem C7_track_range_check (diskImage : List Nat) (t : Int)
    (hlen : 143360 ≤ (diskImage.length : Int)) :
    ((t < 0 ∨ 34 < t) → writeCommandsToLoadDiskTrackToMemory diskImage t 8 =
        .error (illegalTrackNumberMessage t)) ∧
    (¬(t < 0 ∨ 34 < t) →
      ∃ cmds, writeCommandsToLoadDiskTrackToMemory diskImage t 8 = .ok cmds) ∧
    ((∃ e, writeCommandsToLoadDiskTrackToMemory diskImage t 8 = .error e) ↔
      (t < 0 ∨ 34 < t)) ∧
    illegalTrackNumberMessage t =
      "illegal track number encountered: ".toList ++ intDecChars t ++ ['\n'] := by
  have herr : (t < 0 ∨ 34 < t) → writeCommandsToLoadDiskTrackToMemory diskImage t 8 =
      .error (illegalTrackNumberMessage t) := by
    intro h
    simp only [writeCommandsToLoadDiskTrackToMemory]
    rw [if_pos h]
  have hok : ¬(t < 0 ∨ 34 < t) →
      ∃ cmds, writeCommandsToLoadDiskTrackToMemory diskImage t 8 = .ok cmds := by
    intro h
    push_neg at h
    exact ⟨_, writeCommandsToLoadDiskTrackToMemory_spec diskImage t 8 512 (by omega)
      (by omega) (by norm_num) (by omega) (by norm_num) (by norm_num)⟩
  refine ⟨herr, hok, ⟨?_, fun h => ⟨_, herr h⟩⟩, rfl⟩
  rintro ⟨e, he⟩
  by_contra h
  obtain ⟨cmds, hc⟩ := hok h
  rw [hc] at he
  exact Except.noConfusion he

/-- Witness for C7: track 35 gives the range panic naming 35; track 0
succeeds (all-zero full image). -/
theorem C7_track_range_check_witness :
    writeCommandsToLoadDiskTrackToMemory (List.replicate 143360 0) 35 8 =
      .error (illegalTrackNumberMessage 35) ∧
    ∃ cmds, writeCommandsToLoadDiskTrackToMemory (List.replicate 143360 0) 0 8 =
      .ok cmds := by
  refine ⟨(C7_track_range_check (List.replicate 143360 0) 35
      (by rw [List.length_replicate]; norm_num)).1 (by norm_num),
    (C7_track_range_check (List.replicate 143360 0) 0
      (by rw [List.length_replicate]; norm_num)).2.1 (by norm_num)⟩

/-- C5 (amended: provided the start offset is within the source — a start
offset beyond the source length makes the Go slice expression panic): when
`start + count` exceeds the source length, the count is silently clamped to
the available length, no error is raised, and the emitted command carries
exactly the available bytes from the start offset on. -/
theorem C5_clamped_count (sourceBytes : List Nat) (tgt sp c : Int)
    (h0 : 0 ≤ sp) (hle : sp ≤ (sourceBytes.length : Int))
    (hover : (sourceBytes.length : Int) < sp + c) :
    writeCommandsToFillAppleMemorySegment sourceBytes tgt sp c =
      some (clampedFillCmd sourceBytes tgt sp c) ∧
    (clampedFillCmd sourceBytes tgt sp c).payload = sourceBytes.drop sp.toNat ∧
    ((clampedFillCmd sourceBytes tgt sp c).payload.length : Int) =
      (sourceBytes.length : Int) - sp := by
  have hpay : (clampedFillCmd sourceBytes tgt sp c).payload = sourceBytes.drop sp.toNat := by
    simp only [clampedFillCmd, clampedEndPos]
    rw [if_pos (by omega)]
    exact List.take_of_length_le (by rw [List.length_drop]; omega)
  refine ⟨fillSegment_some sourceBytes tgt sp c h0 hle (by omega), hpay, ?_⟩
  rw [hpay, List.length_drop]
  push_cast
  omega

/-- Counterexample to C5 as stated: a start offset beyond the source length
(empty source, start 1, count 1, so `start + count` exceeds the length) is
not clamped to the available bytes; the encoder aborts (Go slice panic,
modelled by `none`). -/
theorem C5_clamped_count_cex :
    writeCommandsToFillAppleMemorySegment ([] : List Nat) 0 1 1 = none := by
  rfl

/-- Witness for C5: a three-byte source, start 1, count 7 — the payload is
clamped to the two available bytes. -/
theorem C5_clamped_count_witness :
    writeCommandsToFillAppleMemorySegment [10, 20, 30] 0 1 7 =
      some (clampedFillCmd [10, 20, 30] 0 1 7) ∧
    (clampedFillCmd [10, 20, 30] 0 1 7).payload = ([10, 20, 30] : List Nat).drop 1 ∧
    ((clampedFillCmd [10, 20, 30] 0 1 7).payload.length : Int) =
      (([10, 20, 30] : List Nat).length : Int) - 1 := by
  have h := C5_clamped_count [10, 20, 30] 0 1 7 (by norm_num) (by norm_num) (by norm_num)
  exact ⟨h.1, h.2.1, h.2.2⟩

/-- Payloads of steady-state commands whose source position already starts
at or beyond the end of the source are empty. -/
theorem expectedMains_flatten_nil (src : List Nat) (s : Int) (hs : 1 ≤ s) :
    ∀ (N : Nat) (tgt sp : Int), (src.length : Int) ≤ sp →
      ((expectedMains src s N tgt sp).map FillCmd.payload).flatten = [] := by
  intro N
  induction N with
  | zero => intro tgt sp _; rfl
  | succ N ih =>
      intro tgt sp hsp
      simp only [expectedMains, List.map_cons, List.flatten_cons]
      rw [ih (tgt + s) (sp + s) (by omega)]
      have hpay : (clampedFillCmd src tgt sp s).payload = [] := by
        simp only [clampedFillCmd, clampedEndPos]
        rw [if_pos (by omega), show ((src.length : Int) - sp).toNat = 0 from by omega]
        rfl
      rw [hpay]
      rfl

/-- Concatenating the payloads of the steady-state commands when the
iterations cover the whole source (`len ≤ sp + N·s`, final command clamped)
gives exactly the remaining bytes of the source. -/
theorem expectedMains_flatten_all (src : List Nat) (s : Int) (hs : 1 ≤ s) :
    ∀ (N : Nat) (tgt sp : Int), 0 ≤ sp → sp ≤ (src.length : Int) →
      (src.length : Int) ≤ sp + N * s →
      ((expectedMains src s N tgt sp).map FillCmd.payload).flatten =
        src.drop sp.toNat := by
  intro N
  induction N with
  | zero =>
      intro tgt sp h0 hle hcov
      simp only [Nat.cast_zero, zero_mul, add_zero] at hcov
      have hsp : sp.toNat = src.length := by omega
      rw [hsp]
      simp [expectedMains]
  | succ N ih =>
      intro tgt sp h0 hle hcov
      have hNs0 : 0 ≤ (N : Int) * s := mul_nonneg (Int.natCast_nonneg N) (by omega)
      have hcast : ((N + 1 : Nat) : Int) * s = (N : Int) * s + s := by push_cast; ring
      rw [hcast] at hcov
      simp only [expectedMains, List.map_cons, List.flatten_cons]
      by_cases hfit : sp + s ≤ (src.length : Int)
      · rw [ih (tgt + s) (sp + s) (by omega) hfit (by linarith)]
        rw [clampedFillCmd_payload_of_le src tgt sp s h0 (by omega) hfit]
        rw [show (sp + s).toNat = sp.toNat + s.toNat from by omega, ← List.drop_drop]
        exact List.take_append_drop s.toNat (src.drop sp.toNat)
      · rw [expectedMains_flatten_nil src s hs N (tgt + s) (sp + s) (by omega)]
        have hpay : (clampedFillCmd src tgt sp s).payload = src.drop sp.toNat := by
          simp only [clampedFillCmd, clampedEndPos]
          rw [if_pos (by omega)]
          exact List.take_of_length_le (by rw [List.length_drop]; omega)
        rw [hpay, List.append_nil]

/-- The identity lookup of `trackNumArray` on `[0, 34]`. -/
theorem trackNumArray_getD_id (n : Nat) (h : n ≤ 34) : trackNumArray.getD n 0 = n := by
  interval_cases n <;> rfl

/-- C8: for every track `t` in `[0, 34]`, the client program loader emits
the fixed client program with the byte at the single track-parameter
position (offset 32) equal to `t` — the `trackNumArray` lookup is the
identity on `[0, 34]` — transferred in 8-byte chunks to target addresses
starting at `0x0C00`, with no ramp commands: exactly the
`⌈52 / 8⌉ = 7` chunk commands, each of byte count 8. -/
theorem C8_client_program (t : Int) (h0 : 0 ≤ t) (h34 : t ≤ 34) :
    trackNumArray.getD t.toNat 0 = t.toNat ∧
    (clientProgram t.toNat)[32]? = some t.toNat ∧
    ∃ cmds, writeCommandsToLoadRWTSClientProgramToMemory t 8 = .ok cmds ∧
      cmds.length = 7 ∧
      (cmds.map FillCmd.payload).flatten = clientProgram t.toNat ∧
      (∀ c ∈ cmds, c.count = 8) ∧
      (∀ (k : Nat) (c : FillCmd), cmds[k]? = some c → c.target = 0x0C00 + 8 * (k : Int)) := by
  have hid : trackNumArray.getD t.toNat 0 = t.toNat := trackNumArray_getD_id t.toNat (by omega)
  refine ⟨hid, rfl, expectedMains (clientProgram (trackNumArray.getD t.toNat 0)) 8 7 0x0C00 0,
    writeCommandsToLoadRWTSClientProgramToMemory_spec t 8 7 h0 h34 (by norm_num)
      (by norm_num) (by norm_num), expectedMains_length _ 8 7 0x0C00 0, ?_, ?_, ?_⟩
  · rw [expectedMains_flatten_all (clientProgram (trackNumArray.getD t.toNat 0)) 8
      (by norm_num) 7 0x0C00 0 (by norm_num)
      (by rw [length_clientProgram]; norm_num)
      (by rw [length_clientProgram]; norm_num)]
    rw [hid]
    rfl
  · exact expectedMains_count _ 8 7 0x0C00 0
  · intro k c hkc
    have hk : k < 7 := by
      by_contra hge
      rw [List.getElem?_eq_none (by rw [expectedMains_length]; omega)] at hkc
      exact Option.noConfusion hkc
    rw [expectedMains_getElem? _ 8 7 0x0C00 0 k hk] at hkc
    injection hkc with hcc
    subst hcc
    exact by norm_num [clampedFillCmd, mul_comm]

/-- Witness for C8 at track 5: the byte stream carries `0x05` at the
track-parameter offset. -/
theorem C8_client_program_witness :
    trackNumArray.getD (5 : Int).toNat 0 = (5 : Int).toNat ∧
    (clientProgram (5 : Int).toNat)[32]? = some (5 : Int).toNat ∧
    ∃ cmds, writeCommandsToLoadRWTSClientProgramToMemory 5 8 = .ok cmds ∧
      cmds.length = 7 ∧
      (cmds.map FillCmd.payload).flatten = clientProgram (5 : Int).toNat ∧
      (∀ c ∈ cmds, c.count = 8) ∧
      (∀ (k : Nat) (c : FillCmd), cmds[k]? = some c → c.target = 0x0C00 + 8 * (k : Int)) :=
  C8_client_program 5 (by norm_num) (by norm_num)

/-! ### Properties of the rendered text -/

theorem hexDigitChar_not_special (d : Nat) (h : d < 16) :
    hexDigitChar d ≠ '\r' ∧ hexDigitChar d ≠ '\n' ∧ hexDigitChar d ≠ ' ' := by
  interval_cases d <;> exact ⟨by decide, by decide, by decide⟩

theorem mem_natHexChars (n : Nat) :
    ∀ c ∈ natHexChars n, ∃ d, d < 16 ∧ c = hexDigitChar d := by
  induction n using Nat.strong_induction_on with
  | _ n ih =>
      intro c hc
      rw [natHexChars] at hc
      by_cases h : n < 16
      · rw [dif_pos h] at hc
        exact ⟨n, h, (List.mem_singleton.mp hc)⟩
      · rw [dif_neg h] at hc
        rcases List.mem_append.mp hc with h1 | h1
        · exact ih (n / 16) (Nat.div_lt_self (by omega) (by omega)) c h1
        · exact ⟨n % 16, Nat.mod_lt n (by omega), List.mem_singleton.mp h1⟩

theorem natHexChars_ne_nil (n : Nat) : natHexChars n ≠ [] := by
  rw [natHexChars]
  by_cases h : n < 16
  · rw [dif_pos h]; exact List.cons_ne_nil _ _
  · rw [dif_neg h]; simp

theorem getLast?_natHexChars (n : Nat) :
    (natHexChars n).getLast? = some (hexDigitChar (n % 16)) := by
  rw [natHexChars]
  by_cases h : n < 16
  · rw [dif_pos h, Nat.mod_eq_of_lt h]; rfl
  · rw [dif_neg h, List.getLast?_concat]

theorem mem_sprintfHex02 (n : Nat) :
    ∀ c ∈ sprintfHex02 n, c = '0' ∨ ∃ d, d < 16 ∧ c = hexDigitChar d := by
  intro c hc
  rw [sprintfHex02] at hc
  by_cases h : n < 16
  · rw [if_pos h] at hc
    rcases List.mem_cons.mp hc with hc | hc
    · exact Or.inl hc
    · exact Or.inr ⟨n, h, List.mem_singleton.mp hc⟩
  · rw [if_neg h] at hc
    exact Or.inr (mem_natHexChars n c hc)

theorem crlf_not_mem_sprintfHex02 (n : Nat) :
    '\r' ∉ sprintfHex02 n ∧ '\n' ∉ sprintfHex02 n := by
  refine ⟨fun hmem => ?_, fun hmem => ?_⟩
  · rcases mem_sprintfHex02 n _ hmem with h | ⟨d, hd, h⟩
    · exact absurd h (by decide)
    · exact (hexDigitChar_not_special d hd).1 h.symm
  · rcases mem_sprintfHex02 n _ hmem with h | ⟨d, hd, h⟩
    · exact absurd h (by decide)
    · exact (hexDigitChar_not_special d hd).2.1 h.symm

theorem getLast?_sprintfHex02 (n : Nat) :
    (sprintfHex02 n).getLast? = some (hexDigitChar (n % 16)) := by
  rw [sprintfHex02]
  by_cases h : n < 16
  · rw [if_pos h, Nat.mod_eq_of_lt h]; rfl
  · rw [if_neg h, getLast?_natHexChars]

theorem mem_byteWriteGroup :
    ∀ (bs : List Nat), ∀ c ∈ generateByteWriteGroupStringFromBytes bs,
      c = ' ' ∨ c = '0' ∨ ∃ d, d < 16 ∧ c = hexDigitChar d := by
  intro bs
  induction bs with
  | nil => intro c hc; exact absurd hc (List.not_mem_nil c)
  | cons b rest ih =>
      cases rest with
      | nil =>
          intro c hc
          rcases mem_sprintfHex02 b c hc with h | h
          · exact Or.inr (Or.inl h)
          · exact Or.inr (Or.inr h)
      | cons b' rest' =>
          intro c hc
          rcases List.mem_append.mp hc with h1 | h1
          · rcases mem_sprintfHex02 b c h1 with h | h
            · exact Or.inr (Or.inl h)
            · exact Or.inr (Or.inr h)
          · rcases List.mem_cons.mp h1 with h2 | h2
            · exact Or.inl h2
            · exact ih c h2

theorem crlf_not_mem_byteWriteGroup (bs : List Nat) :
    '\r' ∉ generateByteWriteGroupStringFromBytes bs ∧
    '\n' ∉ generateByteWriteGroupStringFromBytes bs := by
  refine ⟨fun hmem => ?_, fun hmem => ?_⟩
  · rcases mem_byteWriteGroup bs _ hmem with h | h | ⟨d, hd, h⟩
    · exact absurd h (by decide)
    · exact absurd h (by decide)
    · exact (hexDigitChar_not_special d hd).1 h.symm
  · rcases mem_byteWriteGroup bs _ hmem with h | h | ⟨d, hd, h⟩
    · exact absurd h (by decide)
    · exact absurd h (by decide)
    · exact (hexDigitChar_not_special d hd).2.1 h.symm

theorem crlf_not_mem_generateMemoryAddress (a : Int) :
    '\r' ∉ generateMemoryAddress a ∧ '\n' ∉ generateMemoryAddress a := by
  rw [generateMemoryAddress]
  by_cases h : a < 0
  · rw [if_pos h]
    exact ⟨List.not_mem_nil _, List.not_mem_nil _⟩
  · rw [if_neg h]
    exact crlf_not_mem_sprintfHex02 a.toNat

/-- The last character of a rendered byte group is always a hexadecimal
digit. -/
theorem byteWriteGroup_getLast?_digit (b : Nat) (rest : List Nat) :
    ∃ d, d < 16 ∧ (generateByteWriteGroupStringFromBytes (b :: rest)).getLast? =
      some (hexDigitChar d) := by
  induction rest generalizing b with
  | nil => exact ⟨b % 16, Nat.mod_lt b (by omega), getLast?_sprintfHex02 b⟩
  | cons b' rest' ih =>
      obtain ⟨d, hd, hlast⟩ := ih b'
      refine ⟨d, hd, ?_⟩
      show (sprintfHex02 b ++
        ' ' :: generateByteWriteGroupStringFromBytes (b' :: rest')).getLast? = _

      rw [List.getLast?_append,
        show (' ' :: generateByteWriteGroupStringFromBytes (b' :: rest')) =
          [' '] ++ generateByteWriteGroupStringFromBytes (b' :: rest') from rfl,
        List.getLast?_append, hlast]
      rfl

/-- C6: the segment encoder renders a negative target address as an empty
address field and a non-negative one as zero-padded uppercase hexadecimal
with no prefix (`0x2000` renders as `"2000"`), and renders payload bytes as
uppercase 2-digit hexadecimal separated by single spaces with no trailing
space after the final byte (`[0x00, 0x01, 0xFF]` yields `"00 01 FF"`, the
single byte `[0xAB]` yields `"AB"`). -/
theorem C6_segment_encoder_rendering :
    (∀ a : Int, a < 0 → generateMemoryAddress a = []) ∧
    generateMemoryAddress 0x2000 = ['2', '0', '0', '0'] ∧
    generateByteWriteGroupStringFromBytes [0x00, 0x01, 0xFF] =
      ['0', '0', ' ', '0', '1', ' ', 'F', 'F'] ∧
    generateByteWriteGroupStringFromBytes [0xAB] = ['A', 'B'] ∧
    (∀ bs : List Nat, bs ≠ [] →
      (generateByteWriteGroupStringFromBytes bs).getLast? ≠ some ' ') := by
  refine ⟨fun a ha => by rw [generateMemoryAddress, if_pos ha], ?_, ?_, ?_, ?_⟩
  · show (if (0x2000 : Int) < 0 then [] else sprintfHex02 (0x2000 : Int).toNat) = _
    rw [if_neg (by norm_num)]
    rw [show (0x2000 : Int).toNat = 8192 from rfl]
    rw [sprintfHex02, if_neg (by norm_num)]
    rw [natHexChars, dif_neg (by norm_num), natHexChars, dif_neg (by norm_num),
      natHexChars, dif_neg (by norm_num), natHexChars, dif_pos (by norm_num)]
    decide
  · show sprintfHex02 0x00 ++ ' ' :: (sprintfHex02 0x01 ++ ' ' :: sprintfHex02 0xFF) = _
    rw [sprintfHex02, if_pos (by norm_num), sprintfHex02, if_pos (by norm_num),
      sprintfHex02, if_neg (by norm_num), natHexChars, dif_neg (by norm_num),
      natHexChars, dif_pos (by norm_num)]
    decide
  · show sprintfHex02 0xAB = _
    rw [sprintfHex02, if_neg (by norm_num), natHexChars, dif_neg (by norm_num),
      natHexChars, dif_pos (by norm_num)]
    decide
  · intro bs hbs
    match bs with
    | b :: rest =>
        obtain ⟨d, hd, hlast⟩ := byteWriteGroup_getLast?_digit b rest
        rw [hlast]
        intro hcon
        injection hcon with hcon
        exact (hexDigitChar_not_special d hd).2.2 hcon

/-- Witness for C6: address `-1` renders empty; `[0xAB]` has no trailing
space. -/
theorem C6_segment_encoder_rendering_witness :
    generateMemoryAddress (-1) = [] ∧
    (generateByteWriteGroupStringFromBytes [0xAB]).getLast? ≠ some ' ' :=
  ⟨C6_segment_encoder_rendering.1 (-1) (by norm_num),
    C6_segment_encoder_rendering.2.2.2.2 [0xAB] (by simp)⟩

/-- Every rendered fill-command line starts with the 16-space pad and is
terminated by exactly one carriage return and no line feed. -/
theorem renderFillCmd_props (c : FillCmd) :
    (renderFillCmd generateLineStartPad c).take 16 = generateLineStartPad ∧
    (renderFillCmd generateLineStartPad c).getLast? = some '\r' ∧
    (renderFillCmd generateLineStartPad c).count '\r' = 1 ∧
    (renderFillCmd generateLineStartPad c).count '\n' = 0 := by
  have haddr := crlf_not_mem_generateMemoryAddress c.target
  have hbytes := crlf_not_mem_byteWriteGroup c.payload
  refine ⟨?_, ?_, ?_, ?_⟩
  · rw [renderFillCmd, List.append_assoc, List.append_assoc,
      show (16 : Nat) = generateLineStartPad.length from rfl, List.take_left]
  · rw [renderFillCmd, List.getLast?_append]
    rfl
  · rw [renderFillCmd]
    rw [List.count_append, List.count_append, List.count_append, List.count_cons]
    rw [List.count_eq_zero.mpr haddr.1, List.count_eq_zero.mpr hbytes.1]
    decide
  · rw [renderFillCmd]
    rw [List.count_append, List.count_append, List.count_append, List.count_cons]
    rw [List.count_eq_zero.mpr haddr.2, List.count_eq_zero.mpr hbytes.2]
    decide

/-- C9: every line of the program's standard output — the track loader's and
client loader's rendered fill commands and the executor line — begins with
the fixed 16-character space pad and is terminated by exactly one carriage
return with no line feed. -/
theorem C9_line_format (diskImage : List Nat) (trackNum : Int)
    (lines : List (List Char)) (l : List Char)
    (hok : programOutputLines diskImage trackNum = .ok lines) (hmem : l ∈ lines) :
    l.take 16 = generateLineStartPad ∧ l.getLast? = some '\r' ∧
    l.count '\r' = 1 ∧ l.count '\n' = 0 := by
  simp only [programOutputLines] at hok
  cases hT : writeCommandsToLoadDiskTrackToMemory
      (convertDiskImageFromProdosOrderToDos33Order diskImage) trackNum 8 with
  | error e => rw [hT] at hok; exact Except.noConfusion hok
  | ok trackCmds =>
      rw [hT] at hok
      cases hC : writeCommandsToLoadRWTSClientProgramToMemory trackNum 8 with
      | error e => rw [hC] at hok; exact Except.noConfusion hok
      | ok clientCmds =>
          rw [hC] at hok
          injection hok with hok
          subst hok
          rcases List.mem_append.mp hmem with h1 | h1
          · rcases List.mem_append.mp h1 with h2 | h2
            · obtain ⟨c, _, hc⟩ := List.mem_map.mp h2
              rw [← hc]
              exact renderFillCmd_props c
            · obtain ⟨c, _, hc⟩ := List.mem_map.mp h2
              rw [← hc]
              exact renderFillCmd_props c
          · rw [List.mem_singleton.mp h1]
            exact ⟨by decide, by decide, by decide, by decide⟩

/-- When both generators succeed, the program output is their rendered
command lines followed by the executor line. -/
theorem programOutputLines_eq_ok (diskImage : List Nat) (trackNum : Int)
    (trackCmds clientCmds : List FillCmd)
    (h1 : writeCommandsToLoadDiskTrackToMemory
      (convertDiskImageFromProdosOrderToDos33Order diskImage) trackNum 8 = .ok trackCmds)
    (h2 : writeCommandsToLoadRWTSClientProgramToMemory trackNum 8 = .ok clientCmds) :
    programOutputLines diskImage trackNum = .ok
      (trackCmds.map (renderFillCmd generateLineStartPad) ++
        clientCmds.map (renderFillCmd generateLineStartPad) ++ [executeClient]) := by
  simp only [programOutputLines]
  rw [h1, h2]

/-- Witness for C9: a successful run at track 0 on the all-zero full image;
the executor line is one of its output lines. -/
theorem C9_line_format_witness :
    ∃ lines, programOutputLines (List.replicate 143360 0) 0 = .ok lines ∧
      executeClient ∈ lines ∧
      (executeClient.take 16 = generateLineStartPad ∧
        executeClient.getLast? = some '\r' ∧
        executeClient.count '\r' = 1 ∧ executeClient.count '\n' = 0) := by
  have hT := writeCommandsToLoadDiskTrackToMemory_spec
    (convertDiskImageFromProdosOrderToDos33Order (List.replicate 143360 0)) 0 8 512
    (by norm_num) (by norm_num) (by norm_num)
    (by rw [length_convertDiskImage, List.length_replicate]; norm_num)
    (by norm_num) (by norm_num)
  have hC := writeCommandsToLoadRWTSClientProgramToMemory_spec 0 8 7
    (by norm_num) (by norm_num) (by norm_num) (by norm_num) (by norm_num)
  have hok : programOutputLines (List.replicate 143360 0) 0 = .ok
      ((rampCmds (convertDiskImageFromProdosOrderToDos33Order (List.replicate 143360 0)) 0 8 ++
          expectedMains (convertDiskImageFromProdosOrderToDos33Order (List.replicate 143360 0))
            8 512 0x2000 (4096 * 0)).map (renderFillCmd generateLineStartPad) ++
        (expectedMains (clientProgram (trackNumArray.getD (0 : Int).toNat 0)) 8 7
          0x0C00 0).map (renderFillCmd generateLineStartPad) ++ [executeClient]) :=
    programOutputLines_eq_ok (List.replicate 143360 0) 0 _ _ hT hC
  have hmem : executeClient ∈
      ((rampCmds (convertDiskImageFromProdosOrderToDos33Order (List.replicate 143360 0)) 0 8 ++
          expectedMains (convertDiskImageFromProdosOrderToDos33Order (List.replicate 143360 0))
            8 512 0x2000 (4096 * 0)).map (renderFillCmd generateLineStartPad) ++
        (expectedMains (clientProgram (trackNumArray.getD (0 : Int).toNat 0)) 8 7
          0x0C00 0).map (renderFillCmd generateLineStartPad) ++ [executeClient]) :=
    List.mem_append.mpr (Or.inr (List.mem_singleton.mpr rfl))
  exact ⟨_, hok, hmem,
    C9_line_format (List.replicate 143360 0) 0 _ executeClient hok hmem⟩

end Apple2Disk
